import Mathlib

/-!
Verification development for the `ll2go` region-reduction and code-synthesis
engine (`cmd/ll2go/main.go` of the decomp repository).

The Go source is shallowly embedded below.  Functions present in
`cmd/ll2go/main.go` are translated directly (each definition's doc comment
cites the Go lines).  Methods of the decompiler that the file calls but that
live elsewhere in the repository (`d.prim`, `d.term`, `d.insts`, `d.goType`,
and the `cfa/primitive` record type) are modelled from the specification; their
doc comments start with "Modelled from the spec:".
-/

namespace LL2Go

/-! ## Go AST model (the `go/ast` fragment the decompiler produces) -/

/-- Go expression fragment used by the decompiler: identifiers (`ast.Ident`),
basic literals (`ast.BasicLit`, carrying the token kind and literal text), and
call-shaped expressions used for translated instruction right-hand sides. -/
inductive Expr where
  | ident (name : String)
  | basicLit (kind : String) (value : String)
  | call (op : String) (args : List Expr)

/-- Go statement fragment produced by the decompiler: single assignments
(`ast.AssignStmt` with `token.ASSIGN`), return statements, the structured
statement synthesized for one control-flow primitive, a fallthrough
placeholder for a synthesized block with no terminator of its own, and an
explicit unreachable marker. -/
inductive Stmt where
  | assign (lhs rhs : Expr)
  | ret (results : List Expr)
  | structured (kind : String) (body : List Stmt)
  | empty
  | unreachableStmt

/-- Go type expression fragment (`ast.Expr` used in type position). -/
inductive GoType where
  | ident (name : String)
  | star (t : GoType)
  | funcType (params : List GoType) (ret : Option GoType)

/-- A Go function declaration (`ast.FuncDecl`): name identifier, signature
type, and an optional body (absent for signature-only declarations). -/
structure FuncDecl where
  name : Expr
  typ : GoType
  body : Option (List Stmt)

/-! ## LLVM IR model (the `llir/llvm` fragment the decompiler consumes) -/

/-- An LLVM IR type, reduced to the fragment relevant here. -/
inductive Typ where
  | int (w : Nat)
  | ptr (t : Typ)
  | void
  deriving DecidableEq

/-- A function signature: ordered parameter types and the return type. -/
structure FuncSig where
  params : List Typ
  ret : Typ
  deriving DecidableEq

/-- An LLVM IR value operand as the decompiler's `value` switch distinguishes
them: named locals (the `value.Named` default case), globals and functions
(the `*ir.Global`/`*ir.Function` case), integer constants (`*constant.Int`),
and the constant kinds the code does not handle (`float`, `null`,
aggregates). -/
inductive Value where
  | localRef (name : String)
  | globalRef (name : String)
  | funcRef (name : String)
  | constInt (width : Nat) (x : Int)
  | constFloat (repr : String)
  | constNull
  | constAgg (elems : List Value)

/-- An LLVM IR instruction: a phi instruction with its
(predecessor label, incoming value) pairs, or any other instruction with a
result binding, an operation tag and its operands. -/
inductive Inst where
  | phi (name : String) (incs : List (String × Value))
  | other (name : String) (op : String) (args : List Value)

/-- An LLVM IR terminator: return, unconditional branch, conditional branch,
or unreachable. -/
inductive Term where
  | ret (v : Option Value)
  | br (target : String)
  | condBr (cond : Value) (t f : String)
  | unreachable

/-- An LLVM IR basic block: unique label, ordered instructions, exactly one
terminator. -/
structure BasicBlock where
  name : String
  insts : List Inst
  term : Term

/-- An LLVM IR function: name, signature, ordered basic blocks (empty for a
declaration without a body). -/
structure Function where
  name : String
  sig : FuncSig
  blocks : List BasicBlock

/-! ## Errors -/

/-- Failure outcomes of the engine.  `errorf` is an `errors.Errorf` error from
`main.go` itself; `panicked` is a Go panic (explicit `panic(...)` or a runtime
nil-pointer dereference); the remaining constructors are the spec's error
taxonomy for the parts of the repository modelled from the spec
(UnresolvedReference, UnsupportedConstruct, and a malformed primitive record
missing a role). -/
inductive Err where
  | panicked (msg : String)
  | errorf (msg : String)
  | unresolvedReference (label : String)
  | unsupportedConstruct (what : String)
  | missingRole (role : String)
  deriving DecidableEq

/-- Returns `true` when an `Except` result is a success. -/
def exceptOk {α : Type} : Except Err α → Bool
  | .ok _ => true
  | .error _ => false

/-! ## Identifier and value translation (Go lines 152-188) -/

/-- Go lines 152-156: `global` converts an LLVM IR global identifier to a Go
identifier, keeping the name unchanged. -/
def dglobal (name : String) : Expr := .ident name

/-- Go lines 158-163: `local` converts an LLVM IR local identifier to a Go
identifier by unconditionally prefixing the name with an underscore. -/
def dlocal (name : String) : Expr := .ident ("_" ++ name)

/-- Go lines 165-188: `value` converts an LLVM IR value to a Go expression.
Named values translate to global identifiers for globals/functions and local
identifiers otherwise; `*constant.Int` becomes an integer literal holding the
decimal text of the value; every other constant kind panics with
"not yet implemented". -/
def dvalue : Value → Except Err Expr
  | .localRef n => .ok (dlocal n)
  | .globalRef n => .ok (dglobal n)
  | .funcRef n => .ok (dglobal n)
  | .constInt _ x => .ok (.basicLit "INT" (toString x))
  | .constFloat _ => .error (.panicked "support for constant value *constant.Float not yet implemented")
  | .constNull => .error (.panicked "support for constant value *constant.Null not yet implemented")
  | .constAgg _ => .error (.panicked "support for constant value *constant.Aggregate not yet implemented")

/-- Translates a list of operand values left to right, stopping at the first
panic. -/
def dvalues : List Value → Except Err (List Expr)
  | [] => .ok []
  | v :: vs =>
    match dvalue v with
    | .error e => .error e
    | .ok x =>
      match dvalues vs with
      | .error e => .error e
      | .ok xs => .ok (x :: xs)

/-! ## Type translation -/

/-- Modelled from the spec: `d.goType` is not under `src/` (only its call
site in `funcDecl` is).  Section 4.3: integer types map by bit width, pointer
types to pointer types. -/
def goTypeOf : Typ → GoType
  | .int 1 => .ident "bool"
  | .int w => .ident ("int" ++ toString w)
  | .ptr t => .star (goTypeOf t)
  | .void => .ident "void"

/-- Modelled from the spec: the function-signature part of `d.goType`
(section 4.3: ordered parameter types plus return type; a void return type
becomes an absent result). -/
def goSig (s : FuncSig) : GoType :=
  .funcType (s.params.map goTypeOf)
    (match s.ret with
     | .void => none
     | t => some (goTypeOf t))

/-! ## Working blocks and the block registry (Go lines 64-74, 190-199) -/

/-- Go lines 190-199: a conceptual basic block: the underlying IR block data
(name, instructions, terminator — the terminator is optional because a block
synthesized for a primitive has none of its own), the Go statement buffer
`stmts`, and the phi-outgoing buffer `out`. -/
structure WBlock where
  name : String
  insts : List Inst
  term : Option Term
  stmts : List Stmt
  out : List Stmt

/-- Go lines 64-69: the decompiler's mutable map from basic-block label to
conceptual basic block, embedded as an association list whose list order
stands for internal storage order. -/
abbrev Registry : Type := List (String × WBlock)

/-- Map lookup `d.blocks[k]` (returns `none` where Go returns `nil`). -/
def regLookup : Registry → String → Option WBlock
  | [], _ => none
  | e :: reg, k => if e.1 = k then some e.2 else regLookup reg k

/-- Map assignment `d.blocks[k] = v`: replaces the entry for an existing key
in place, otherwise adds a new entry. -/
def regInsert : Registry → String → WBlock → Registry
  | [], k, v => [(k, v)]
  | e :: reg, k, v => if e.1 = k then (k, v) :: reg else e :: regInsert reg k v

/-- Map deletion `delete(d.blocks, k)`. -/
def regErase : Registry → String → Registry
  | [], _ => []
  | e :: reg, k => if e.1 = k then regErase reg k else e :: regErase reg k

/-- Go lines 126-129: the deletion loop `for _, node := range prim.Nodes`
removing every consumed member label from the registry. -/
def regEraseAll : Registry → List String → Registry
  | reg, [] => reg
  | reg, k :: ks => regEraseAll (regErase reg k) ks

/-- In-place mutation of the block a registry entry points to (Go mutates
through the `*basicBlock` pointer stored in the map). -/
def regUpdate : Registry → String → WBlock → Registry
  | [], _, _ => []
  | e :: reg, k, b => if e.1 = k then (k, b) :: reg else e :: regUpdate reg k b

/-- The labels currently present in the registry, in storage order. -/
def keys (reg : Registry) : List String := reg.map Prod.fst

/-- The working block a freshly seeded registry entry holds: the IR block
with empty statement and phi-outgoing buffers (Go line 96:
`&basicBlock{BasicBlock: block}`). -/
def seedWB (b : BasicBlock) : WBlock :=
  { name := b.name, insts := b.insts, term := some b.term, stmts := [], out := [] }

/-- Sequential seeding loop, one insertion per block in order. -/
def seedAux : Registry → List BasicBlock → Registry
  | reg, [] => reg
  | reg, b :: bs => seedAux (regInsert reg b.name (seedWB b)) bs

/-- Go lines 93-97: reset the basic block mapping and seed it with one entry
per block of the function, in block order. -/
def seedBlocks (bs : List BasicBlock) : Registry := seedAux [] bs

/-! ## Statement translation (Go lines 201-209 plus modelled `d.insts`,
`d.term`) -/

/-- Modelled from the spec: `d.insts` is not under `src/` (only its call site
in `stmts` is).  Section 4.3: each non-phi instruction becomes one assignment
statement `binding = expr(operands)`; phi instructions contribute no statement
directly. -/
def instStmt : Inst → Except Err (Option Stmt)
  | .phi _ _ => .ok none
  | .other name op args =>
    match dvalues args with
    | .error e => .error e
    | .ok es => .ok (some (.assign (dlocal name) (.call op es)))

/-- Instruction-derived statements of a block, in original instruction order;
phi instructions are skipped. -/
def dinsts : List Inst → Except Err (List Stmt)
  | [] => .ok []
  | i :: is =>
    match instStmt i with
    | .error e => .error e
    | .ok s? =>
      match dinsts is with
      | .error e => .error e
      | .ok rest =>
        .ok (match s? with
             | some s => s :: rest
             | none => rest)

/-- Go lines 201-209: `stmts` converts a conceptual basic block into its
ordered statement list: instruction-derived statements, then the recorded
statement buffer, then the phi-outgoing buffer. -/
def dstmts (b : WBlock) : Except Err (List Stmt) :=
  match dinsts b.insts with
  | .error e => .error e
  | .ok is => .ok (is ++ b.stmts ++ b.out)

/-- Modelled from the spec: `d.term` is not under `src/` (only its call site
in `funcDecl` is).  Section 4.3: the terminator of the single surviving block
becomes an explicit control statement — a return with translated operand or an
explicit unreachable marker; branch terminators are not supported there; a
synthesized block without a terminator of its own has implicit fallthrough
control effect (section 4.2 step 5). -/
def dterm : Option Term → Except Err Stmt
  | none => .ok .empty
  | some (.ret none) => .ok (.ret [])
  | some (.ret (some v)) =>
    match dvalue v with
    | .error e => .error e
    | .ok x => .ok (.ret [x])
  | some (.br _) => .error (.panicked "support for terminator *ir.TermBr not yet implemented")
  | some (.condBr _ _ _) => .error (.panicked "support for terminator *ir.TermCondBr not yet implemented")
  | some .unreachable => .ok .unreachableStmt

/-! ## Phi resolution (Go lines 99-118) -/

/-- Go lines 108-116: process the incoming values of one phi instruction.
For each (predecessor, value) pair the predecessor is fetched from the
registry (line 109), the assignment `local(phiName) = value(inc.X)` is built
(lines 110-114; a value of an unsupported kind panics here), and the
assignment is appended to the predecessor's phi-outgoing buffer (line 115).
If the predecessor label names no block the map lookup yields `nil` and the
append dereferences a nil pointer, a Go runtime panic (a panic raised while
building the assignment takes priority, since it happens first). -/
def phiIncs : Registry → String → List (String × Value) → Except Err Registry
  | reg, _, [] => .ok reg
  | reg, nm, (pred, x) :: incs =>
    match dvalue x, regLookup reg pred with
    | .error e, _ => .error e
    | .ok _, none => .error (.panicked "runtime error: invalid memory address or nil pointer dereference")
    | .ok rhs, some b =>
      phiIncs (regUpdate reg pred { b with out := b.out ++ [Stmt.assign (dlocal nm) rhs] }) nm incs

/-- Go lines 101-117: scan a block's instructions; non-phi instructions are
skipped, each phi's incoming values are propagated by `phiIncs`. -/
def phiInsts : Registry → List Inst → Except Err Registry
  | reg, [] => .ok reg
  | reg, i :: is =>
    match i with
    | .phi nm incs =>
      match phiIncs reg nm incs with
      | .error e => .error e
      | .ok reg2 => phiInsts reg2 is
    | .other _ _ _ => phiInsts reg is

/-- Go lines 99-118: record outgoing PHI values — for every block of the
function in order, propagate every phi's incoming values as assignment
statements into the predecessor blocks' phi-outgoing buffers. -/
def phiResolve : Registry → List BasicBlock → Except Err Registry
  | reg, [] => .ok reg
  | reg, b :: bs =>
    match phiInsts reg b.insts with
    | .error e => .error e
    | .ok reg2 => phiResolve reg2 bs

/-! ## Control-flow primitives and region reduction (Go lines 120-132 plus
modelled `d.prim`) -/

/-- Modelled from the spec: the `cfa/primitive` record type is not under
`src/` (only `main.go`, which consumes it, is).  Section 6: a primitive feed
record carries a kind tag, the member block labels (here a role-name to
member-label map whose association-list order stands for internal storage
order), the label under which the synthesized working block is inserted, and
the entry-label metadata. -/
structure Primitive where
  prim : String
  node : String
  nodes : List (String × String)
  entry : String
  deriving DecidableEq

/-- The member labels a primitive consumes, in internal storage order (the
values of the role-to-label map; Go line 127 ranges over them to delete
them). -/
def primMembers (p : Primitive) : List String := p.nodes.map Prod.snd

/-- Modelled from the spec: the declared member order of each primitive kind
(section 4.2 step 3 — sequence, conditional, two-armed conditional, pre-test
loop, post-test loop, compound), given as the role names to read from the
member map, in processing order.  An unknown kind is unsupported. -/
def roleOrder : String → Option (List String)
  | "seq" => some ["entry", "exit"]
  | "if" => some ["cond", "body", "exit"]
  | "if_else" => some ["cond", "body_true", "body_false", "exit"]
  | "pre_loop" => some ["cond", "body", "exit"]
  | "post_loop" => some ["cond", "exit"]
  | "compound" => some ["body"]
  | _ => none

/-- Role lookup in a primitive's member map (first entry with the given role
name). -/
def lookupRole : String → List (String × String) → Option String
  | _, [] => none
  | r, e :: ns => if e.1 = r then some e.2 else lookupRole r ns

/-- Reads the member labels named by a role list from a primitive's member
map; a missing role makes the primitive record malformed. -/
def rolesLookup : List String → List (String × String) → Except Err (List String)
  | [], _ => .ok []
  | r :: rs, nodes =>
    match lookupRole r nodes with
    | none => .error (.missingRole r)
    | some lbl =>
      match rolesLookup rs nodes with
      | .error e => .error e
      | .ok rest => .ok (lbl :: rest)

/-- Modelled from the spec: the member labels of a primitive in the
primitive's declared member order (section 4.2, determinism: members are
processed in declared member order, never in storage order). -/
def declaredMembers (p : Primitive) : Except Err (List String) :=
  match roleOrder p.prim with
  | none => .error (.unsupportedConstruct p.prim)
  | some roles => rolesLookup roles p.nodes

/-- Modelled from the spec: section 4.2 step 1 — resolve each member label
against the registry; any missing label fails with UnresolvedReference. -/
def resolveMembers (reg : Registry) : List String → Except Err (List WBlock)
  | [] => .ok []
  | l :: ls =>
    match regLookup reg l with
    | none => .error (.unresolvedReference l)
    | some b =>
      match resolveMembers reg ls with
      | .error e => .error e
      | .ok bs => .ok (b :: bs)

/-- Modelled from the spec: section 4.2 step 2 — each member's ordered
statement sequence, concatenated in declared member order. -/
def memberSeqs : List WBlock → Except Err (List Stmt)
  | [] => .ok []
  | b :: bs =>
    match dstmts b with
    | .error e => .error e
    | .ok s =>
      match memberSeqs bs with
      | .error e => .error e
      | .ok rest => .ok (s ++ rest)

/-- Modelled from the spec: `d.prim` is not under `src/` (only its call site
in `funcDecl` is).  Section 4.2 steps 1-3 and 5: resolve the members in
declared member order, obtain their statement sequences, synthesize one
structured statement for the primitive's kind, and produce a new working block
under the primitive's synthesized label whose statement buffer is exactly that
one statement and that has no terminator of its own. -/
def dprim (reg : Registry) (p : Primitive) : Except Err WBlock :=
  match declaredMembers p with
  | .error e => .error e
  | .ok ms =>
    match resolveMembers reg ms with
    | .error e => .error e
    | .ok blocks =>
      match memberSeqs blocks with
      | .error e => .error e
      | .ok body =>
        .ok { name := p.node, insts := [], term := none,
              stmts := [Stmt.structured p.prim body], out := [] }

/-- Go lines 121-132: recover control flow primitives — for each primitive in
supplied order, synthesize its block with `d.prim`, delete the merged basic
blocks named by the primitive, and insert the synthesized block under its
name. -/
def reduceSteps (reg : Registry) : List Primitive → Except Err Registry
  | [] => .ok reg
  | p :: ps =>
    match dprim reg p with
    | .error e => .error e
    | .ok block => reduceSteps (regInsert (regEraseAll reg (primMembers p)) block.name block) ps

/-! ## Function declaration (Go lines 76-149) and the per-module loop -/

/-- Go line 137: the exact `errors.Errorf` message reporting that control flow
recovery left a registry of size `n` instead of 1. -/
def cfrMsg (n : Nat) : String :=
  s!"control flow recovery failed; unable to reduce function into a single basic block; expected 1 basic block, got {n}"

/-- Go lines 76-149: `funcDecl` converts an LLVM IR function into a Go
function declaration.  A function without blocks yields the signature-only
declaration immediately (lines 89-91).  Otherwise the registry is seeded
(lines 93-97), outgoing phi values are recorded (lines 99-118), the primitives
are applied (lines 120-132), and exactly one block must remain (lines
134-141) whose statement buffer followed by its terminator-derived statement
becomes the body (lines 143-148).  The Go code builds the declaration `fn`
once and conditionally attaches a body; here the record is written out in
both branches. -/
def funcDecl (f : Function) (prims : List Primitive) : Except Err FuncDecl :=
  if f.blocks.length < 1 then
    .ok { name := dglobal f.name, typ := goSig f.sig, body := none }
  else
    match phiResolve (seedBlocks f.blocks) f.blocks with
    | .error e => .error e
    | .ok reg1 =>
      match reduceSteps reg1 prims with
      | .error e => .error e
      | .ok reg2 =>
        match reg2 with
        | [(_, block)] =>
          match dterm block.term with
          | .error e => .error e
          | .ok ts =>
            .ok { name := dglobal f.name, typ := goSig f.sig,
                  body := some (block.stmts ++ [ts]) }
        | _ => .error (.errorf (cfrMsg reg2.length))

/-- Go lines 45-60: the per-module loop of `ll2go`, minus file I/O — each
function is converted with the primitive list addressed by its name, and the
declarations are collected in input order. -/
def ll2goFuncs (primsOf : String → List Primitive) : List Function → Except Err (List FuncDecl)
  | [] => .ok []
  | f :: fs =>
    match funcDecl f (primsOf f.name) with
    | .error e => .error e
    | .ok d =>
      match ll2goFuncs primsOf fs with
      | .error e => .error e
      | .ok ds => .ok (d :: ds)

/-! ## Definitions used to state the claims -/

/-- The successor labels a terminator references. -/
def succs : Term → List String
  | .ret _ => []
  | .br t => [t]
  | .condBr _ t f => [t, f]
  | .unreachable => []

/-- The actual predecessors of the block labelled `lbl` in function `f`: the
names of the blocks whose terminator references `lbl` as a successor. -/
def predsOf (f : Function) (lbl : String) : List String :=
  (f.blocks.filter (fun b => lbl ∈ succs b.term)).map BasicBlock.name

/-- The (predecessor label, incoming value) pairs of an instruction (empty for
a non-phi instruction). -/
def instIncs : Inst → List (String × Value)
  | .phi _ incs => incs
  | .other _ _ _ => []

/-- `true` when every instruction of the working block translates without a
panic. -/
def instsOK (b : WBlock) : Bool := exceptOk (dinsts b.insts)

/-- Decimal digits to a natural number (accumulator form). -/
def digitsToNat : List Char → Nat → Nat
  | [], acc => acc
  | c :: cs, acc => digitsToNat cs (acc * 10 + (c.toNat - '0'.toNat))

/-- The integer denoted by an emitted integer literal's text. -/
def litToInt (s : String) : Int :=
  match s.data with
  | '-' :: cs => -(digitsToNat cs 0 : Int)
  | cs => (digitsToNat cs 0 : Int)

/-- Integer semantics of a translated expression under a store mapping
emitted identifier names to integer values (used to examine the runtime
meaning of the emitted phi assignment sequences). -/
def evalExpr (s : String → Int) : Expr → Int
  | .ident n => s n
  | .basicLit _ v => litToInt v
  | .call _ _ => 0

/-- Executes a list of emitted assignment statements sequentially, updating
the store; non-assignment statements are skipped. -/
def execAssigns : (String → Int) → List Stmt → (String → Int)
  | s, [] => s
  | s, (.assign (.ident l) r) :: rest =>
    execAssigns (fun n => if n = l then evalExpr s r else s n) rest
  | s, _ :: rest => execAssigns s rest

/-- The 25 Go reserved words. -/
def goKeywords : List String :=
  ["break", "case", "chan", "const", "continue", "default", "defer", "else",
   "fallthrough", "for", "func", "go", "goto", "if",
   "import", "interface", "map", "package", "range", "return",
   "select", "struct", "switch", "type", "var"]

/-- `true` when the primitives' member-label sets partition exactly the given
block-label set: every block label appears in exactly one primitive's member
set, and every member label is a block label. -/
def partitionb (labels : List String) (prims : List Primitive) : Bool :=
  labels.all (fun l => prims.countP (fun p => (primMembers p).contains l) == 1) &&
  prims.all (fun p => (primMembers p).all (fun m => labels.contains m))

/-- A well-formed primitive record: the declared member order resolves and is
a permutation of the stored member labels. -/
def primWF (p : Primitive) : Bool :=
  match declaredMembers p with
  | .ok ms => ms.isPerm (primMembers p)
  | .error _ => false

/-- The labels of `avail` that survive the deletion of the labels in `ks`. -/
def erasedKeys (avail ks : List String) : List String :=
  avail.filter (fun l => l ∉ ks)

/-- The spec's arrival-order invariant for a primitive list (section 3,
Primitive): starting from the available labels, every primitive's member
labels are all still present when it is processed, its synthesized label does
not collide with a label that survives it, and applying the full ordered list
leaves exactly one label. -/
def Chain : List String → List Primitive → Prop
  | avail, [] => avail.length = 1
  | avail, p :: ps =>
    primWF p = true ∧ (primMembers p).Nodup ∧
    (∀ m ∈ primMembers p, m ∈ avail) ∧
    p.node ∉ erasedKeys avail (primMembers p) ∧
    Chain (erasedKeys avail (primMembers p) ++ [p.node]) ps

instance chainDec : (avail : List String) → (prims : List Primitive) → Decidable (Chain avail prims)
  | _, [] => by unfold Chain; infer_instance
  | avail, p :: ps => by
    unfold Chain
    have h := chainDec (erasedKeys avail (primMembers p) ++ [p.node]) ps
    exact @instDecidableAnd _ _ inferInstance
      (@instDecidableAnd _ _ inferInstance
        (@instDecidableAnd _ _ inferInstance
          (@instDecidableAnd _ _ inferInstance h)))

/-- Two primitive records that agree on everything except the internal
storage order of the member map, whose role names are distinct (as they are
in a Go map). -/
def PrimEquiv (p q : Primitive) : Prop :=
  p.prim = q.prim ∧ p.node = q.node ∧ p.entry = q.entry ∧
  p.nodes.Perm q.nodes ∧ (p.nodes.map Prod.fst).Nodup

/-! ## Concrete inputs used by the claim theorems -/

/-- The spec's phi-simultaneity example (section 8): block `target` has phis
`d1 = phi(A: 1, B: b1)` and `d2 = phi(A: d1, B: b2)`. -/
def swapBlocks : List BasicBlock :=
  [⟨"A", [], .br "target"⟩,
   ⟨"B", [], .br "target"⟩,
   ⟨"target",
    [.phi "d1" [("A", .constInt 32 1), ("B", .localRef "b1")],
     .phi "d2" [("A", .localRef "d1"), ("B", .localRef "b2")]],
    .ret none⟩]

/-- The assignment sequence the phi resolver emits on edge `A` of the
simultaneity example: the phi-outgoing buffer of block `A` after
`phiResolve`. -/
def swapOutA : List Stmt :=
  match phiResolve (seedBlocks swapBlocks) swapBlocks with
  | .ok reg =>
    match regLookup reg "A" with
    | some b => b.out
    | none => []
  | .error _ => []

/-- The store at the end of predecessor block `A` in the simultaneity
example: the binding emitted for `d1` holds 5. -/
def swapStore : String → Int := fun n => if n = "_d1" then 5 else 0

/-- A function with two basic blocks, used with an empty primitive list. -/
def twoBlocksF : Function :=
  ⟨"g", ⟨[], .void⟩, [⟨"blk_x", [], .unreachable⟩, ⟨"blk_y", [], .unreachable⟩]⟩

/-- A function whose block `target` has two actual predecessors `A` and `B`
but whose phi lists only the incoming entry for `A`. -/
def mismatchF : Function :=
  ⟨"h", ⟨[], .void⟩,
   [⟨"A", [], .br "target"⟩,
    ⟨"B", [], .br "target"⟩,
    ⟨"target", [.phi "p" [("A", .constInt 32 7)]], .ret none⟩]⟩

/-- A primitive list fully reducing the three blocks of `mismatchF`. -/
def mismatchPrims : List Primitive :=
  [⟨"if", "p1", [("cond", "A"), ("body", "B"), ("exit", "target")], "A"⟩]

/-- A function with two straight-line blocks `a` and `b`. -/
def abF : Function :=
  ⟨"k", ⟨[], .void⟩, [⟨"a", [], .unreachable⟩, ⟨"b", [], .unreachable⟩]⟩

/-- Two single-member primitives whose member sets partition `{a, b}` exactly
but whose synthesized labels are never consumed. -/
def abPrims : List Primitive :=
  [⟨"compound", "p1", [("body", "a")], "a"⟩,
   ⟨"compound", "p2", [("body", "b")], "b"⟩]

/-- A chained primitive list for `abF`: the second primitive consumes the
first one's synthesized block. -/
def chainPrims : List Primitive :=
  [⟨"compound", "p1", [("body", "a")], "a"⟩,
   ⟨"seq", "p2", [("entry", "p1"), ("exit", "b")], "p1"⟩]

/-- A sequence primitive over `abF` and the same record with the internal
storage order of its member map permuted. -/
def seqPrim : Primitive := ⟨"seq", "s1", [("entry", "a"), ("exit", "b")], "a"⟩

/-- `seqPrim` with its member map stored in the opposite order. -/
def seqPrimSwapped : Primitive := ⟨"seq", "s1", [("exit", "b"), ("entry", "a")], "a"⟩

/-- A function with exactly one basic block holding one non-phi instruction.
-/
def oneBlockF : Function :=
  ⟨"m", ⟨[], .void⟩,
   [⟨"entry", [.other "x" "add" [.constInt 32 1, .constInt 32 2]], .ret (some (.constInt 32 0))⟩]⟩

/-- A signature-only function declaration (no basic blocks). -/
def declF : Function := ⟨"ext", ⟨[.int 32], .int 32⟩, []⟩

/-- For every block of a function, the set of predecessor labels its phi
instructions reference (used to compare with the actual predecessor sets). -/
def phiIncLabels (f : Function) : List (String × List String) :=
  f.blocks.map (fun b => (b.name, (b.insts.map (fun i => (instIncs i).map Prod.fst)).flatten))

/-! ## Theorems

First the claims that are settled by direct evaluation of the embedded code
on concrete inputs, then the registry lemmas, then the general theorems. -/

/-- Claim C1 (counter-evidence, evaluating the code at the failing input):
on the spec's own simultaneity example the phi resolver emits, for edge `A`,
the naive sequential assignments `_d1 = 1; _d2 = _d1` — no temporaries are
introduced — and executing that sequence from the state at the end of block
`A` (where the binding of `d1` holds 5) makes `d2` receive 1, the freshly
written incoming value of `d1`, not the old value 5 that phi semantics
require. -/
theorem phi_swap_naive_sequential :
    swapOutA = [Stmt.assign (Expr.ident "_d1") (Expr.basicLit "INT" "1"),
                Stmt.assign (Expr.ident "_d2") (Expr.ident "_d1")] ∧
    execAssigns swapStore swapOutA "_d2" = 1 ∧
    execAssigns swapStore swapOutA "_d2" ≠ 5 := by
  refine ⟨rfl, rfl, by decide⟩

set_option maxRecDepth 8000 in
/-- Claim C2 (counterexample): with two blocks `blk_x`, `blk_y` and an empty
primitive list, `funcDecl` fails with the control-flow-recovery error whose
message reports the remaining count 2 but does not mention either remaining
label, and the registry at failure holds the two original labels with no
reduced region. -/
theorem reduction_incomplete_no_labels_cex :
    funcDecl twoBlocksF [] = .error (.errorf (cfrMsg 2)) ∧
    cfrMsg 2 = "control flow recovery failed; unable to reduce function into a single basic block; expected 1 basic block, got 2" ∧
    ¬ ("blk_x".data <:+: (cfrMsg 2).data) ∧
    ¬ ("blk_y".data <:+: (cfrMsg 2).data) ∧
    keys (seedBlocks twoBlocksF.blocks) = ["blk_x", "blk_y"] := by
  refine ⟨rfl, rfl, by decide, by decide, rfl⟩

/-- Claim C3 (counterexample): in `mismatchF` the block `target` has actual
predecessors `A` and `B` but its phi lists only an incoming entry for `A`;
nevertheless `funcDecl` succeeds and emits a declaration — no MalformedInput
failure occurs. -/
theorem phi_mismatch_decl_emitted_cex :
    phiIncLabels mismatchF = [("A", []), ("B", []), ("target", ["A"])] ∧
    predsOf mismatchF "target" = ["A", "B"] ∧
    exceptOk (funcDecl mismatchF mismatchPrims) = true := by
  refine ⟨rfl, rfl, rfl⟩

/-- Claim C4 (counterexample): the member sets of `abPrims` partition the
block-label set `{a, b}` of `abF` exactly — each original label appears in
exactly one member set — yet applying the list leaves two working blocks (the
two synthesized labels, neither consumed), so reduction fails with the
ReductionIncomplete error instead of succeeding. -/
theorem partition_not_sufficient_cex :
    partitionb ["a", "b"] abPrims = true ∧
    abF.blocks.map BasicBlock.name = ["a", "b"] ∧
    funcDecl abF abPrims = .error (.errorf (cfrMsg 2)) := by
  refine ⟨by decide, rfl, rfl⟩

/-- Claim C7 (counterexample): for the one-block function `oneBlockF` with an
empty primitive list, the emitted body is only the terminator-derived
statement; the block's instruction-derived statements (which are non-empty,
as the second conjunct shows) never enter the statement buffer, which is
seeded empty. -/
theorem single_block_insts_dropped_cex :
    funcDecl oneBlockF [] =
      .ok { name := Expr.ident "m", typ := goSig oneBlockF.sig,
            body := some [Stmt.ret [Expr.basicLit "INT" "0"]] } ∧
    dinsts [Inst.other "x" "add" [Value.constInt 32 1, Value.constInt 32 2]] =
      .ok [Stmt.assign (Expr.ident "_x")
            (Expr.call "add" [Expr.basicLit "INT" "1", Expr.basicLit "INT" "2"])] ∧
    oneBlockF.blocks.map BasicBlock.insts =
      [[Inst.other "x" "add" [Value.constInt 32 1, Value.constInt 32 2]]] := by
  refine ⟨rfl, rfl, rfl⟩

/-- Claim C9 (counterexample): value translation of a float constant does not
succeed — it panics with "not yet implemented". -/
theorem float_constant_panics_cex :
    dvalue (Value.constFloat "1.0") =
      .error (.panicked "support for constant value *constant.Float not yet implemented") := rfl

/-- Claim C9 (amended): only integer constants translate, to an integer
literal holding the decimal text of the value (the declared bit width is not
encoded in the literal); float, null and aggregate constants all abort with a
panic. -/
theorem constant_translation :
    (∀ w x, dvalue (Value.constInt w x) = .ok (Expr.basicLit "INT" (toString x))) ∧
    (∀ s, dvalue (Value.constFloat s) =
      .error (.panicked "support for constant value *constant.Float not yet implemented")) ∧
    (dvalue Value.constNull =
      .error (.panicked "support for constant value *constant.Null not yet implemented")) ∧
    (∀ es, dvalue (Value.constAgg es) =
      .error (.panicked "support for constant value *constant.Aggregate not yet implemented")) :=
  ⟨fun _ _ => rfl, fun _ => rfl, rfl, fun _ => rfl⟩

/-- Claim C10 (counterexample): the emitted local identifier for IR name `x`
coincides with the emitted global identifier for IR name `_x`, so emitted
local identifiers can collide with emitted global identifiers. -/
theorem local_global_collision_cex : dlocal "x" = dglobal "_x" := rfl

/-- Claim C10 (amended): every emitted local identifier is the IR name
prefixed with an underscore, the mapping is injective, no emitted local
identifier is a Go reserved word, and a local collides with a global exactly
when the global's IR name is the underscore-prefixed local IR name. -/
theorem local_prefixing :
    (∀ n, dlocal n = Expr.ident ("_" ++ n)) ∧
    (∀ a b, dlocal a = dlocal b → a = b) ∧
    (∀ n k, k ∈ goKeywords → dlocal n ≠ Expr.ident k) ∧
    (∀ a b, dlocal a = dglobal b ↔ b = "_" ++ a) := by
  refine ⟨fun _ => rfl, ?_, ?_, ?_⟩
  · intro a b h
    have h2 : "_" ++ a = "_" ++ b := by
      simpa [dlocal, Expr.ident.injEq] using h
    have h3 : ('_' :: a.data) = ('_' :: b.data) := by
      have := congrArg String.data h2
      simpa [String.data_append] using this
    cases a; cases b
    exact congrArg String.mk (List.cons_injective h3)
  · intro n k hk h
    have h2 : "_" ++ n = k := by
      simpa [dlocal, Expr.ident.injEq] using h
    have h3 : k.data.head? = some '_' := by
      rw [← h2]
      simp [String.data_append]
    have h4 : ∀ k2 ∈ goKeywords, k2.data.head? ≠ some '_' := by decide
    exact h4 k hk h3
  · intro a b
    constructor
    · intro h
      have h2 : "_" ++ a = b := by
        simpa [dlocal, dglobal, Expr.ident.injEq] using h
      exact h2.symm
    · intro h
      simp [dlocal, dglobal, h]

/-- Witness for the hypothesis-bearing conjuncts of `local_prefixing`,
instantiated at concrete names and the reserved word `func`. -/
theorem local_prefixing_witness : dlocal "x" ≠ Expr.ident "func" :=
  local_prefixing.2.2.1 "x" "func" (by decide)

/-! ## Registry lemmas -/

theorem keys_regUpdate (reg : Registry) (k : String) (b : WBlock) :
    keys (regUpdate reg k b) = keys reg := by
  induction reg with
  | nil => rfl
  | cons e reg ih =>
    by_cases h : e.1 = k
    · simp [regUpdate, keys, h]
    · simp only [regUpdate, if_neg h, keys, List.map_cons] at ih ⊢
      rw [ih]

theorem regLookup_some_of_mem_keys {reg : Registry} {k : String} (h : k ∈ keys reg) :
    ∃ b, regLookup reg k = some b ∧ (k, b) ∈ reg := by
  induction reg with
  | nil => simp [keys] at h
  | cons e reg ih =>
    by_cases he : e.1 = k
    · refine ⟨e.2, ?_, ?_⟩
      · simp [regLookup, he]
      · subst he; exact List.mem_cons_self _ _
    · have h2 : k ∈ keys reg := by
        simp only [keys, List.map_cons, List.mem_cons] at h
        rcases h with h | h
        · exact absurd h.symm he
        · exact h
      obtain ⟨b, hb, hm⟩ := ih h2
      exact ⟨b, by simp [regLookup, he, hb], List.mem_cons_of_mem _ hm⟩

theorem regLookup_none_iff {reg : Registry} {k : String} :
    regLookup reg k = none ↔ k ∉ keys reg := by
  induction reg with
  | nil => simp [regLookup, keys]
  | cons e reg ih =>
    by_cases he : e.1 = k
    · simp [regLookup, he, keys, he ▸ List.mem_cons_self e.1 (keys reg)]
    · simp only [regLookup, if_neg he, keys, List.map_cons, List.mem_cons, ih]
      constructor
      · intro h hc
        rcases hc with hc | hc
        · exact he hc.symm
        · exact h hc
      · intro h hc
        exact h (Or.inr hc)

/-! ## Phi resolution lemmas -/

theorem phiIncs_ok {nm : String} :
    ∀ (incs : List (String × Value)) (reg : Registry),
      (∀ inc ∈ incs, inc.1 ∈ keys reg ∧ exceptOk (dvalue inc.2) = true) →
      ∃ reg2, phiIncs reg nm incs = .ok reg2 ∧ keys reg2 = keys reg := by
  intro incs
  induction incs with
  | nil => exact fun reg _ => ⟨reg, rfl, rfl⟩
  | cons inc incs ih =>
    intro reg h
    obtain ⟨h1, h2⟩ := h inc (List.mem_cons_self _ _)
    obtain ⟨b, hb, _⟩ := regLookup_some_of_mem_keys h1
    obtain ⟨pred, x⟩ := inc
    cases hv : dvalue x with
    | error e => rw [hv] at h2; simp [exceptOk] at h2
    | ok rhs =>
      have hkeys := keys_regUpdate reg pred
        { b with out := b.out ++ [Stmt.assign (dlocal nm) rhs] }
      obtain ⟨reg2, hr, hk⟩ :=
        ih (regUpdate reg pred { b with out := b.out ++ [Stmt.assign (dlocal nm) rhs] })
          (by
            intro inc2 hm
            obtain ⟨m1, m2⟩ := h inc2 (List.mem_cons_of_mem _ hm)
            exact ⟨hkeys ▸ m1, m2⟩)
      refine ⟨reg2, ?_, hk.trans hkeys⟩
      simp only [phiIncs]
      rw [hv, hb]
      exact hr

theorem phiInsts_ok :
    ∀ (is : List Inst) (reg : Registry),
      (∀ i ∈ is, ∀ inc ∈ instIncs i, inc.1 ∈ keys reg ∧ exceptOk (dvalue inc.2) = true) →
      ∃ reg2, phiInsts reg is = .ok reg2 ∧ keys reg2 = keys reg := by
  intro is
  induction is with
  | nil => exact fun reg _ => ⟨reg, rfl, rfl⟩
  | cons i is ih =>
    intro reg h
    cases i with
    | phi nm incs =>
      obtain ⟨reg2, hr, hk⟩ := phiIncs_ok incs reg
        (fun inc hm => h _ (List.mem_cons_self _ _) inc hm)
      obtain ⟨reg3, hr3, hk3⟩ := ih reg2
        (by
          intro i2 hm inc hinc
          obtain ⟨m1, m2⟩ := h i2 (List.mem_cons_of_mem _ hm) inc hinc
          exact ⟨hk ▸ m1, m2⟩)
      refine ⟨reg3, ?_, hk3.trans hk⟩
      simp only [phiInsts]
      rw [hr]
      exact hr3
    | other nm op args =>
      obtain ⟨reg2, hr, hk⟩ := ih reg
        (fun i2 hm inc hinc => h i2 (List.mem_cons_of_mem _ hm) inc hinc)
      exact ⟨reg2, hr, hk⟩

theorem phiResolve_ok :
    ∀ (bs : List BasicBlock) (reg : Registry),
      (∀ b ∈ bs, ∀ i ∈ b.insts, ∀ inc ∈ instIncs i,
        inc.1 ∈ keys reg ∧ exceptOk (dvalue inc.2) = true) →
      ∃ reg2, phiResolve reg bs = .ok reg2 ∧ keys reg2 = keys reg := by
  intro bs
  induction bs with
  | nil => exact fun reg _ => ⟨reg, rfl, rfl⟩
  | cons b bs ih =>
    intro reg h
    obtain ⟨reg2, hr, hk⟩ := phiInsts_ok b.insts reg
      (fun i hm inc hinc => h b (List.mem_cons_self _ _) i hm inc hinc)
    obtain ⟨reg3, hr3, hk3⟩ := ih reg2
      (by
        intro b2 hm i hi inc hinc
        obtain ⟨m1, m2⟩ := h b2 (List.mem_cons_of_mem _ hm) i hi inc hinc
        exact ⟨hk ▸ m1, m2⟩)
    refine ⟨reg3, ?_, hk3.trans hk⟩
    simp only [phiResolve]
    rw [hr]
    exact hr3

/-- Claim C3 (amended): the engine performs no predecessor-set validation.
Phi resolution succeeds whenever every incoming predecessor label names some
block of the function and every incoming value is of a supported kind — no
requirement relates a phi's incoming predecessor set to the owning block's
actual predecessor set, so a mismatch is not detected (a missing predecessor
entry silently contributes no assignment, and an incoming label naming no
block crashes with a nil-pointer panic rather than failing with
MalformedInput). -/
theorem phi_mismatch_not_detected (f : Function)
    (h : ∀ b ∈ f.blocks, ∀ i ∈ b.insts, ∀ inc ∈ instIncs i,
      inc.1 ∈ keys (seedBlocks f.blocks) ∧ exceptOk (dvalue inc.2) = true) :
    ∃ reg2, phiResolve (seedBlocks f.blocks) f.blocks = .ok reg2 :=
  (phiResolve_ok f.blocks (seedBlocks f.blocks) h).imp (fun _ hr => hr.1)

/-- Witness: `phi_mismatch_not_detected` applied to `mismatchF`, whose phi
incoming set is a strict subset of the owning block's predecessors. -/
theorem phi_mismatch_not_detected_witness :
    exceptOk (phiResolve (seedBlocks mismatchF.blocks) mismatchF.blocks) = true := by
  obtain ⟨reg2, hr⟩ := phi_mismatch_not_detected mismatchF (by decide)
  rw [hr]
  rfl

/-- Claim C2 (amended): whenever phi resolution and every primitive step
succeed but the registry's final size differs from one, `funcDecl` fails with
the control-flow-recovery error whose message reports the remaining count
(the remaining labels are not part of the report), and no declaration is
produced. -/
theorem reduction_incomplete_reports_count_only
    (f : Function) (prims : List Primitive) (reg1 reg2 : Registry)
    (hb : 1 ≤ f.blocks.length)
    (h1 : phiResolve (seedBlocks f.blocks) f.blocks = .ok reg1)
    (h2 : reduceSteps reg1 prims = .ok reg2)
    (h3 : reg2.length ≠ 1) :
    funcDecl f prims = .error (.errorf (cfrMsg reg2.length)) := by
  have hlt : ¬ f.blocks.length < 1 := by omega
  simp only [funcDecl, if_neg hlt, h1, h2]
  rcases reg2 with _ | ⟨e, _ | ⟨e2, t⟩⟩
  · rfl
  · exact absurd rfl h3
  · rfl

/-- Witness: `reduction_incomplete_reports_count_only` applied to
`twoBlocksF` with the empty primitive list. -/
theorem reduction_incomplete_reports_count_only_witness :
    funcDecl twoBlocksF [] = .error (.errorf (cfrMsg (seedBlocks twoBlocksF.blocks).length)) :=
  reduction_incomplete_reports_count_only twoBlocksF []
    (seedBlocks twoBlocksF.blocks) (seedBlocks twoBlocksF.blocks)
    (by decide) rfl rfl (by decide)

/-- Claim C7 (amended): when reduction converges to a single working block,
the emitted body is that block's statement buffer followed by the statement
derived from its terminator, in that order.  The statement buffer of an
original block is seeded empty — instruction-derived statements are
materialized only when a primitive consumes the block — so for a function
with one basic block and an empty primitive list the body holds only the
terminator-derived statement. -/
theorem body_from_buffer_and_term
    (f : Function) (prims : List Primitive) (reg1 : Registry)
    (l : String) (b : WBlock) (ts : Stmt)
    (hb : 1 ≤ f.blocks.length)
    (h1 : phiResolve (seedBlocks f.blocks) f.blocks = .ok reg1)
    (h2 : reduceSteps reg1 prims = .ok [(l, b)])
    (h3 : dterm b.term = .ok ts) :
    funcDecl f prims =
      .ok { name := dglobal f.name, typ := goSig f.sig, body := some (b.stmts ++ [ts]) } := by
  have hlt : ¬ f.blocks.length < 1 := by omega
  simp only [funcDecl, if_neg hlt, h1, h2, h3]

/-- Witness: `body_from_buffer_and_term` applied to the one-block function
`oneBlockF` with the empty primitive list; the seeded buffer is empty, so the
body is just the translated return. -/
theorem body_from_buffer_and_term_witness :
    funcDecl oneBlockF [] =
      .ok { name := dglobal oneBlockF.name, typ := goSig oneBlockF.sig,
            body := some ((seedWB ⟨"entry",
                [Inst.other "x" "add" [Value.constInt 32 1, Value.constInt 32 2]],
                Term.ret (some (Value.constInt 32 0))⟩).stmts ++
              [Stmt.ret [Expr.basicLit "INT" "0"]]) } :=
  body_from_buffer_and_term oneBlockF [] (seedBlocks oneBlockF.blocks) "entry"
    (seedWB ⟨"entry", [Inst.other "x" "add" [Value.constInt 32 1, Value.constInt 32 2]],
      Term.ret (some (Value.constInt 32 0))⟩)
    (Stmt.ret [Expr.basicLit "INT" "0"])
    (by decide) rfl rfl rfl

/-- If some member label is absent from the registry, member resolution fails
with an UnresolvedReference error naming an absent label. -/
theorem resolveMembers_absent :
    ∀ (ms : List String) (reg : Registry) (lbl : String),
      lbl ∈ ms → regLookup reg lbl = none →
      ∃ l2, resolveMembers reg ms = .error (.unresolvedReference l2) ∧
        regLookup reg l2 = none := by
  intro ms
  induction ms with
  | nil => intro reg lbl h; simp at h
  | cons m ms ih =>
    intro reg lbl hm hnone
    cases hr : regLookup reg m with
    | none =>
      refine ⟨m, ?_, hr⟩
      simp only [resolveMembers]
      rw [hr]
    | some b =>
      have hlbl : lbl ∈ ms := by
        rcases List.mem_cons.mp hm with h | h
        · subst h; rw [hr] at hnone; exact absurd hnone (by simp)
        · exact h
      obtain ⟨l2, hres, hl2⟩ := ih reg lbl hlbl hnone
      refine ⟨l2, ?_, hl2⟩
      simp only [resolveMembers]
      rw [hr, hres]

/-- Claim C6: when the region reducer processes a primitive whose declared
members contain a label absent from the registry (already consumed earlier,
or double-referenced), the reduction fails with an UnresolvedReference error
naming an absent label, rather than continuing. -/
theorem missing_member_unresolved (reg : Registry) (p : Primitive) (ps : List Primitive)
    (ms : List String) (lbl : String)
    (hd : declaredMembers p = .ok ms) (hm : lbl ∈ ms) (hn : regLookup reg lbl = none) :
    ∃ l2, reduceSteps reg (p :: ps) = .error (.unresolvedReference l2) ∧
      regLookup reg l2 = none := by
  obtain ⟨l2, hres, hl2⟩ := resolveMembers_absent ms reg lbl hm hn
  refine ⟨l2, ?_, hl2⟩
  simp only [reduceSteps, dprim, hd, hres]

/-- Witness: `missing_member_unresolved` applied to a primitive naming the
label `nope`, which is not in the registry seeded from `abF`. -/
theorem missing_member_unresolved_witness :
    exceptOk (reduceSteps (seedBlocks abF.blocks)
      [⟨"compound", "z", [("body", "nope")], "e"⟩]) = false := by
  obtain ⟨l2, hr, _⟩ := missing_member_unresolved (seedBlocks abF.blocks)
    ⟨"compound", "z", [("body", "nope")], "e"⟩ [] ["nope"] "nope" rfl
    (List.mem_singleton.mpr rfl) rfl
  rw [hr]
  rfl

/-! ## Storage-order invariance (claim C5) -/

theorem lookupRole_eq_none_iff {l : List (String × String)} {r : String} :
    lookupRole r l = none ↔ r ∉ l.map Prod.fst := by
  induction l with
  | nil => simp [lookupRole]
  | cons e l ih =>
    by_cases he : e.1 = r
    · simp [lookupRole, he]
    · simp only [lookupRole, if_neg he, List.map_cons, List.mem_cons, ih]
      constructor
      · intro h hc
        rcases hc with hc | hc
        · exact he hc.symm
        · exact h hc
      · intro h hc
        exact h (Or.inr hc)

theorem lookupRole_eq_some_iff {l : List (String × String)} {r v : String}
    (h : (l.map Prod.fst).Nodup) :
    lookupRole r l = some v ↔ (r, v) ∈ l := by
  induction l with
  | nil => simp [lookupRole]
  | cons e l ih =>
    have hnd : (l.map Prod.fst).Nodup := (List.nodup_cons.mp h).2
    have hhd : e.1 ∉ l.map Prod.fst := (List.nodup_cons.mp h).1
    by_cases he : e.1 = r
    · simp only [lookupRole, if_pos he, List.mem_cons]
      constructor
      · intro hv
        left
        obtain ⟨e1, e2⟩ := e
        simp only [Option.some.injEq] at hv
        simp only at he
        rw [← he, ← hv]
      · intro hv
        rcases hv with hv | hv
        · obtain ⟨e1, e2⟩ := e
          simp only at he
          cases hv
          rfl
        · exact absurd (he ▸ (List.mem_map.mpr ⟨(r, v), hv, rfl⟩)) hhd
    · simp only [lookupRole, if_neg he, List.mem_cons, ih hnd]
      constructor
      · intro hv
        exact Or.inr hv
      · intro hv
        rcases hv with hv | hv
        · subst hv; exact absurd rfl he
        · exact hv

theorem lookupRole_perm {l l2 : List (String × String)} {r : String}
    (h : (l.map Prod.fst).Nodup) (hp : l.Perm l2) :
    lookupRole r l = lookupRole r l2 := by
  have h2 : (l2.map Prod.fst).Nodup := ((hp.map Prod.fst).nodup_iff).mp h
  cases hv : lookupRole r l with
  | none =>
    have := lookupRole_eq_none_iff.mp hv
    exact ((lookupRole_eq_none_iff.mpr (fun hc => this ((hp.map Prod.fst).mem_iff.mpr hc)))).symm
  | some v =>
    have := (lookupRole_eq_some_iff h).mp hv
    exact ((lookupRole_eq_some_iff h2).mpr (hp.mem_iff.mp this)).symm

theorem rolesLookup_perm {l l2 : List (String × String)}
    (h : (l.map Prod.fst).Nodup) (hp : l.Perm l2) :
    ∀ roles, rolesLookup roles l = rolesLookup roles l2 := by
  intro roles
  induction roles with
  | nil => rfl
  | cons r rs ih =>
    simp only [rolesLookup, ← lookupRole_perm h hp, ih]

theorem declaredMembers_equiv {p q : Primitive} (h : PrimEquiv p q) :
    declaredMembers p = declaredMembers q := by
  obtain ⟨h1, _, _, h4, h5⟩ := h
  simp only [declaredMembers, h1]
  cases roleOrder q.prim with
  | none => rfl
  | some roles => exact rolesLookup_perm h5 h4 roles

theorem regErase_comm (reg : Registry) (k1 k2 : String) :
    regErase (regErase reg k1) k2 = regErase (regErase reg k2) k1 := by
  by_cases hk : k1 = k2
  · subst hk; rfl
  · induction reg with
    | nil => rfl
    | cons e reg ih =>
      by_cases h1 : e.1 = k1
      · have h2 : ¬e.1 = k2 := fun hc => hk (h1.symm.trans hc)
        simp [regErase, h1, h2, hk, Ne.symm hk, ih]
      · by_cases h2 : e.1 = k2
        · simp [regErase, h1, h2, hk, Ne.symm hk, ih]
        · simp [regErase, h1, h2, ih]

theorem regEraseAll_perm {ks ks2 : List String} (hp : ks.Perm ks2) :
    ∀ reg, regEraseAll reg ks = regEraseAll reg ks2 := by
  induction hp with
  | nil => intro _; rfl
  | cons x _ ih =>
    intro reg
    simp only [regEraseAll]
    exact ih _
  | swap x y l =>
    intro reg
    simp only [regEraseAll]
    rw [regErase_comm]
  | trans _ _ ih1 ih2 =>
    intro reg
    rw [ih1, ih2]

theorem primMembers_perm {p q : Primitive} (h : PrimEquiv p q) :
    (primMembers p).Perm (primMembers q) :=
  h.2.2.2.1.map Prod.snd

theorem dprim_equiv {p q : Primitive} (h : PrimEquiv p q) (reg : Registry) :
    dprim reg p = dprim reg q := by
  simp only [dprim, declaredMembers_equiv h, h.1, h.2.1]

theorem reduceSteps_equiv :
    ∀ {ps qs : List Primitive}, List.Forall₂ PrimEquiv ps qs →
      ∀ reg, reduceSteps reg ps = reduceSteps reg qs := by
  intro ps qs h
  induction h with
  | nil => intro _; rfl
  | @cons p q ps2 qs2 hpq _ ih =>
    intro reg
    simp only [reduceSteps, dprim_equiv hpq reg]
    cases hq : dprim reg q with
    | error e => rfl
    | ok block =>
      simp only [regEraseAll_perm (primMembers_perm hpq) reg, ih]

/-- Claim C5: permuting the internal storage order of each primitive's
member-label map — keeping the primitive order, the declared member order,
and everything else fixed — never changes the generated declaration. -/
theorem storage_order_invariance (f : Function) {ps qs : List Primitive}
    (h : List.Forall₂ PrimEquiv ps qs) :
    funcDecl f ps = funcDecl f qs := by
  by_cases hb : f.blocks.length < 1
  · simp only [funcDecl, if_pos hb]
  · simp only [funcDecl, if_neg hb, reduceSteps_equiv h]

/-- Witness: `storage_order_invariance` applied to `abF` and the sequence
primitive stored in two different internal orders. -/
theorem storage_order_invariance_witness :
    funcDecl abF [seqPrim] = funcDecl abF [seqPrimSwapped] :=
  storage_order_invariance abF
    (List.Forall₂.cons ⟨rfl, rfl, rfl, by decide, by decide⟩ List.Forall₂.nil)

/-! ## Chain reduction (claim C4) -/

theorem keys_length (reg : Registry) : (keys reg).length = reg.length :=
  List.length_map reg Prod.fst

theorem keys_cons (e : String × WBlock) (reg : Registry) :
    keys (e :: reg) = e.1 :: keys reg := rfl

theorem keys_append (reg1 reg2 : Registry) :
    keys (reg1 ++ reg2) = keys reg1 ++ keys reg2 :=
  List.map_append Prod.fst reg1 reg2

theorem keys_regErase (reg : Registry) (k : String) :
    keys (regErase reg k) = (keys reg).filter (fun l => l ≠ k) := by
  induction reg with
  | nil => rfl
  | cons e reg ih =>
    by_cases h : e.1 = k
    · rw [regErase, if_pos h, ih, keys_cons, List.filter_cons, if_neg (by simp [h])]
    · rw [regErase, if_neg h, keys_cons, keys_cons, ih, List.filter_cons, if_pos (by simp [h])]

theorem filter_ne_notMem (avail : List String) (m : String) (ks : List String) :
    ((avail.filter (fun l => l ≠ m)).filter (fun l => l ∉ ks)) =
      avail.filter (fun l => l ∉ m :: ks) := by
  rw [List.filter_filter]
  apply List.filter_congr
  intro a _
  by_cases h1 : a = m <;> by_cases h2 : a ∈ ks <;> simp [h1, h2]

theorem keys_regEraseAll :
    ∀ (ks : List String) (reg : Registry),
      keys (regEraseAll reg ks) = erasedKeys (keys reg) ks := by
  intro ks
  induction ks with
  | nil =>
    intro reg
    simp [regEraseAll, erasedKeys]
  | cons m ks ih =>
    intro reg
    rw [regEraseAll, ih, erasedKeys, keys_regErase, filter_ne_notMem]
    rfl

theorem mem_of_mem_regErase {reg : Registry} {k : String} {e : String × WBlock}
    (h : e ∈ regErase reg k) : e ∈ reg := by
  induction reg with
  | nil => simp [regErase] at h
  | cons e2 reg ih =>
    by_cases h2 : e2.1 = k
    · simp only [regErase, if_pos h2] at h
      exact List.mem_cons_of_mem _ (ih h)
    · simp only [regErase, if_neg h2, List.mem_cons] at h
      rcases h with h | h
      · exact h ▸ List.mem_cons_self _ _
      · exact List.mem_cons_of_mem _ (ih h)

theorem mem_of_mem_regEraseAll :
    ∀ {ks : List String} {reg : Registry} {e : String × WBlock},
      e ∈ regEraseAll reg ks → e ∈ reg := by
  intro ks
  induction ks with
  | nil => intro reg e h; exact h
  | cons m ks ih => intro reg e h; exact mem_of_mem_regErase (ih h)

theorem regInsert_notmem {reg : Registry} {k : String} (v : WBlock)
    (h : k ∉ keys reg) : regInsert reg k v = reg ++ [(k, v)] := by
  induction reg with
  | nil => rfl
  | cons e reg ih =>
    have he : ¬e.1 = k := by
      intro hc
      apply h
      rw [keys_cons, hc]
      exact List.mem_cons_self _ _
    have h2 : k ∉ keys reg := by
      intro hc
      apply h
      rw [keys_cons]
      exact List.mem_cons_of_mem _ hc
    simp [regInsert, he, ih h2]

theorem instsOK_dstmts {b : WBlock} (h : instsOK b = true) :
    ∃ ss, dstmts b = .ok ss := by
  unfold instsOK exceptOk at h
  cases hd : dinsts b.insts with
  | error e => rw [hd] at h; simp at h
  | ok is => exact ⟨is ++ b.stmts ++ b.out, by simp [dstmts, hd]⟩

theorem resolveMembers_ok {reg : Registry} :
    ∀ {ms : List String}, (∀ m ∈ ms, m ∈ keys reg) →
      ∃ bs, resolveMembers reg ms = .ok bs ∧ ∀ b ∈ bs, ∃ k, (k, b) ∈ reg := by
  intro ms
  induction ms with
  | nil => exact fun _ => ⟨[], rfl, by simp⟩
  | cons m ms ih =>
    intro h
    obtain ⟨b, hb, hbm⟩ := regLookup_some_of_mem_keys (h m (List.mem_cons_self _ _))
    obtain ⟨bs, hres, hall⟩ := ih (fun m2 hm2 => h m2 (List.mem_cons_of_mem _ hm2))
    refine ⟨b :: bs, ?_, ?_⟩
    · simp only [resolveMembers]
      rw [hb, hres]
    · intro b2 hb2
      rcases List.mem_cons.mp hb2 with h2 | h2
      · exact ⟨m, h2 ▸ hbm⟩
      · exact hall b2 h2

theorem memberSeqs_ok :
    ∀ {bs : List WBlock}, (∀ b ∈ bs, instsOK b = true) →
      ∃ ss, memberSeqs bs = .ok ss := by
  intro bs
  induction bs with
  | nil => exact fun _ => ⟨[], rfl⟩
  | cons b bs ih =>
    intro h
    obtain ⟨s, hs⟩ := instsOK_dstmts (h b (List.mem_cons_self _ _))
    obtain ⟨ss, hss⟩ := ih (fun b2 hb2 => h b2 (List.mem_cons_of_mem _ hb2))
    refine ⟨s ++ ss, ?_⟩
    simp only [memberSeqs]
    rw [hs, hss]

theorem dprim_ok {p : Primitive} {reg : Registry}
    (hwf : primWF p = true)
    (hmem : ∀ m ∈ primMembers p, m ∈ keys reg)
    (htr : ∀ e ∈ reg, instsOK e.2 = true) :
    ∃ body, dprim reg p =
      .ok { name := p.node, insts := [], term := none,
            stmts := [Stmt.structured p.prim body], out := [] } := by
  cases hd : declaredMembers p with
  | error e => unfold primWF at hwf; rw [hd] at hwf; simp at hwf
  | ok ms =>
    have hperm : ms.Perm (primMembers p) := by
      unfold primWF at hwf
      rw [hd] at hwf
      exact List.isPerm_iff.mp hwf
    obtain ⟨bs, hres, hall⟩ :=
      resolveMembers_ok (fun m hm => hmem m (hperm.mem_iff.mp hm))
    have hok : ∀ b ∈ bs, instsOK b = true := by
      intro b hb
      obtain ⟨k, hk⟩ := hall b hb
      exact htr (k, b) hk
    obtain ⟨ss, hseq⟩ := memberSeqs_ok hok
    refine ⟨ss, ?_⟩
    simp only [dprim, hd, hres, hseq]

/-- Claim C4 (amended): the spec's arrival-order invariant — every
primitive's member labels all present when it is processed, fresh synthesized
labels, and the full list leaving exactly one label (`Chain`) — guarantees
that the region reducer succeeds and leaves the block registry with exactly
one working block; the member-sets-partition condition alone does not
guarantee this (see the counterexample). -/
theorem reduce_chain :
    ∀ (prims : List Primitive) (reg : Registry),
      (keys reg).Nodup → (∀ e ∈ reg, instsOK e.2 = true) →
      Chain (keys reg) prims →
      ∃ reg2, reduceSteps reg prims = .ok reg2 ∧ reg2.length = 1 := by
  intro prims
  induction prims with
  | nil =>
    intro reg _ _ hch
    unfold Chain at hch
    rw [keys_length] at hch
    exact ⟨reg, rfl, hch⟩
  | cons p ps ih =>
    intro reg hnd htr hch
    unfold Chain at hch
    obtain ⟨hwf, _, hmem, hnode, hch2⟩ := hch
    obtain ⟨body, hdp⟩ := dprim_ok hwf hmem htr
    have herase : keys (regEraseAll reg (primMembers p)) =
        erasedKeys (keys reg) (primMembers p) :=
      keys_regEraseAll (primMembers p) reg
    have hnotin : p.node ∉ keys (regEraseAll reg (primMembers p)) := by
      rw [herase]; exact hnode
    have hins := regInsert_notmem
      ({ name := p.node, insts := [], term := none,
         stmts := [Stmt.structured p.prim body], out := [] } : WBlock) hnotin
    have hkeys2 : keys (regInsert (regEraseAll reg (primMembers p)) p.node
        { name := p.node, insts := [], term := none,
          stmts := [Stmt.structured p.prim body], out := [] }) =
        erasedKeys (keys reg) (primMembers p) ++ [p.node] := by
      rw [hins, keys_append, herase]
      rfl
    have hnd2 : (keys (regInsert (regEraseAll reg (primMembers p)) p.node
        { name := p.node, insts := [], term := none,
          stmts := [Stmt.structured p.prim body], out := [] })).Nodup := by
      rw [hkeys2]
      refine List.Nodup.append (hnd.filter _) (List.nodup_singleton _) ?_
      intro x hx hx2
      simp only [List.mem_singleton] at hx2
      subst hx2
      exact hnode hx
    have htr2 : ∀ e ∈ regInsert (regEraseAll reg (primMembers p)) p.node
        { name := p.node, insts := [], term := none,
          stmts := [Stmt.structured p.prim body], out := [] }, instsOK e.2 = true := by
      rw [hins]
      intro e he
      rcases List.mem_append.mp he with he | he
      · exact htr e (mem_of_mem_regEraseAll he)
      · simp only [List.mem_singleton] at he
        subst he
        rfl
    have hch3 : Chain (keys (regInsert (regEraseAll reg (primMembers p)) p.node
        { name := p.node, insts := [], term := none,
          stmts := [Stmt.structured p.prim body], out := [] })) ps := by
      rw [hkeys2]
      exact hch2
    obtain ⟨reg2, hsteps, hlen⟩ := ih _ hnd2 htr2 hch3
    refine ⟨reg2, ?_, hlen⟩
    simp only [reduceSteps, hdp]
    exact hsteps

/-- Witness: `reduce_chain` applied to `abF` with the chained primitive list
`chainPrims`, whose second primitive consumes the first one's synthesized
label. -/
theorem reduce_chain_witness :
    exceptOk (reduceSteps (seedBlocks abF.blocks) chainPrims) = true := by
  obtain ⟨reg2, hr, _⟩ :=
    reduce_chain chainPrims (seedBlocks abF.blocks) (by decide) (by decide) (by decide)
  rw [hr]
  rfl

/-! ## Signature-only declarations (claim C8) -/

/-- Claim C8: a function without basic blocks bypasses phi resolution, region
reduction and statement translation — its result is the body-less declaration,
independent of the primitive list — and in the per-module loop the body-less
declaration appears unchanged at the function's input position. -/
theorem bodyless_passthrough :
    (∀ (f : Function) (prims : List Primitive), f.blocks = [] →
      funcDecl f prims = .ok { name := dglobal f.name, typ := goSig f.sig, body := none }) ∧
    (∀ (primsOf : String → List Primitive) (fs : List Function) (ds : List FuncDecl)
        (i : Nat) (f : Function),
      ll2goFuncs primsOf fs = .ok ds → fs[i]? = some f → f.blocks = [] →
      ds[i]? = some { name := dglobal f.name, typ := goSig f.sig, body := none }) := by
  have h1 : ∀ (f : Function) (prims : List Primitive), f.blocks = [] →
      funcDecl f prims = .ok { name := dglobal f.name, typ := goSig f.sig, body := none } := by
    intro f prims hf
    simp only [funcDecl, hf, List.length_nil]
    rfl
  refine ⟨h1, ?_⟩
  intro primsOf fs
  induction fs with
  | nil =>
    intro ds i f hll hf
    simp at hf
  | cons f0 fs ih =>
    intro ds i f hll hf hblocks
    cases hd0 : funcDecl f0 (primsOf f0.name) with
    | error e =>
      simp only [ll2goFuncs, hd0] at hll
      exact Except.noConfusion hll
    | ok d0 =>
      cases hrest : ll2goFuncs primsOf fs with
      | error e =>
        simp only [ll2goFuncs, hd0, hrest] at hll
        exact Except.noConfusion hll
      | ok ds2 =>
        simp only [ll2goFuncs, hd0, hrest, Except.ok.injEq] at hll
        subst hll
        cases i with
        | zero =>
          simp only [List.getElem?_cons_zero, Option.some.injEq] at hf
          subst hf
          rw [h1 f0 (primsOf f0.name) hblocks] at hd0
          injection hd0 with h
          simp only [List.getElem?_cons_zero, Option.some.injEq]
          exact h.symm
        | succ n =>
          simp only [List.getElem?_cons_succ] at hf ⊢
          exact ih ds2 n f hrest hf hblocks

/-- Witness: `bodyless_passthrough` applied to the signature-only declaration
`declF`. -/
theorem bodyless_passthrough_witness :
    funcDecl declF [] = .ok { name := dglobal declF.name, typ := goSig declF.sig, body := none } :=
  bodyless_passthrough.1 declF [] rfl

end LL2Go
